import Mathlib

/-!
Verification of the subanagram search solver (`solver.py`).

Words and queries are modelled as `List Char`.  The two pickled
dictionaries (`anagrams`, `vectors`) are modelled as insertion-ordered
association lists, matching Python dict semantics (unique keys kept in
insertion order).  Python sets of words become `Finset (List Char)`.
-/

namespace Solver

/-- Model of `string.ascii_lowercase`, the probe list used by `vectorize_word`. -/
def ascii_lowercase : List Char :=
  ['a', 'b', 'c', 'd', 'e', 'f', 'g', 'h', 'i', 'j', 'k', 'l', 'm',
   'n', 'o', 'p', 'q', 'r', 's', 't', 'u', 'v', 'w', 'x', 'y', 'z']

/-- Model of `vectorize_word`: for each of the 26 lowercase letters, in order,
append the number of occurrences of that letter in the word
(`word.count(letter)`). -/
def vectorize_word (word : List Char) : List Nat :=
  ascii_lowercase.map (fun letter => word.count letter)

/-- Model of Python `sorted(word)`: the characters in non-decreasing code-point
order (stable, though stability is irrelevant for characters). -/
def sortWord (w : List Char) : List Char :=
  w.insertionSort (· ≤ ·)

/-- Model of `str.lower` on a single character, for the ASCII range exercised by
the word lists and queries in scope (Python also maps non-ASCII cased letters,
which never arise here). -/
def pyLowerChar (c : Char) : Char :=
  if 'A' ≤ c ∧ c ≤ 'Z' then Char.ofNat (c.toNat + 32) else c

/-- Model of `str.lower` applied to a whole word. -/
def pyLower (w : List Char) : List Char :=
  w.map pyLowerChar

/-- Characters removed by Python `str.rstrip()` (ASCII whitespace). -/
def isPySpace (c : Char) : Bool :=
  c = ' ' || c = '\t' || c = '\n' || c = '\x0b' || c = '\x0c' || c = '\r'

/-- Model of `str.rstrip()`: drop trailing whitespace characters. -/
def rstrip (l : List Char) : List Char :=
  (l.reverse.dropWhile isPySpace).reverse

/-- The word tokens actually processed by `generate_lookup`'s read loop
`while (word := wordlist_file.readline().rstrip())`: each line is rstripped and
the loop stops at the first line that rstrips to the empty string (a blank line
or end of file). -/
def wordTokens (lines : List (List Char)) : List (List Char) :=
  (lines.map rstrip).takeWhile (fun w => !w.isEmpty)

/-- The pair of dictionaries pickled to `lookup.p`: `anagrams` maps a sorted key
to the set of its anagrams, `vectors` maps a sorted key to its letter-count
vector.  Both are insertion-ordered association lists, as Python dicts are. -/
structure Lookup where
  anagrams : List (List Char × Finset (List Char))
  vectors : List (List Char × List Nat)
deriving DecidableEq

/-- The state both dictionaries start from in `generate_lookup`. -/
def emptyLookup : Lookup := ⟨[], []⟩

/-- Python dict lookup on the association-list model: the value at the first
entry whose key equals `k`, if any. -/
def dget {β : Type} (m : List (List Char × β)) (k : List Char) : Option β :=
  match m with
  | [] => none
  | p :: t => if p.1 = k then some p.2 else dget t k

/-- Model of `anagrams[sorted_word].add(word)`: insert the word into the set
stored at the given key (all other entries are unchanged). -/
def addWordTo (m : List (List Char × Finset (List Char))) (k w : List Char) :
    List (List Char × Finset (List Char)) :=
  m.map (fun p => if p.1 = k then (p.1, insert w p.2) else p)

/-- One iteration of `generate_lookup`'s loop body for a word token: sort the
word; if the sorted key is new, create an empty anagram set for it and cache its
letter-count vector; then add the word to the key's anagram set. -/
def insertWord (st : Lookup) (word : List Char) : Lookup :=
  let s := sortWord word
  let st' :=
    if (dget st.anagrams s).isSome then st
    else ⟨st.anagrams ++ [(s, ∅)], st.vectors ++ [(s, vectorize_word s)]⟩
  ⟨addWordTo st'.anagrams s word, st'.vectors⟩

/-- Model of `generate_lookup`: fold the loop body over the word tokens read
from the word-list lines (the file content split into lines). -/
def generate_lookup (lines : List (List Char)) : Lookup :=
  (wordTokens lines).foldl insertWord emptyLookup

/-- The dictionaries' state after the first `n` word tokens have been processed
by `generate_lookup`'s loop (the during-construction states; for `n` at least
the number of tokens this is the final lookup table). -/
def buildState (lines : List (List Char)) (n : Nat) : Lookup :=
  ((wordTokens lines).take n).foldl insertWord emptyLookup

/-- Model of the subanagram test of `get_results`:
`all(candidate_vectorized[letter] <= input_vectorized[letter] for letter in range(26))`. -/
def vecLe (a b : List Nat) : Bool :=
  (List.range 26).all (fun i => decide (a.getD i 0 ≤ b.getD i 0))

/-- Model of `get_results`: lowercase the input, vectorize it, scan every key of
`anagrams`, union in the anagram sets of keys passing the subanagram test, and
finally remove the (lowercased) input itself from the solution set. -/
def get_results (lk : Lookup) (search_input : List Char) : Finset (List Char) :=
  ((lk.anagrams.map Prod.fst).foldl
    (fun acc c =>
      if vecLe ((dget lk.vectors c).getD []) (vectorize_word (pyLower search_input))
      then acc ∪ (dget lk.anagrams c).getD ∅
      else acc) ∅).erase (pyLower search_input)

/-- A word is indexed when it belongs to some anagram set of the lookup table. -/
def indexedWord (lk : Lookup) (w : List Char) : Prop :=
  ∃ p ∈ lk.anagrams, w ∈ p.2

/-- Model of `range(len(search_input), 1, -1)`: the lengths
`n, n-1, ..., 2` visited by `print_results`' printing loop. -/
def rangeDownTo2 (n : Nat) : List Nat :=
  (List.range (n - 1)).map (fun i => n - i)

/-- Model of `print_results`, as the sequence of printed groups: for each length
in `range(len(search_input), 1, -1)`, the group of result words of that length
is emitted when it is non-empty (group order inside a line is Python set
iteration order, which the model abstracts as a `Finset`). -/
def print_results (search_input : List Char) (results_unordered : Finset (List Char)) :
    List (Nat × Finset (List Char)) :=
  (rangeDownTo2 search_input.length).filterMap (fun l =>
    let g := results_unordered.filter (fun w => w.length = l)
    if g.Nonempty then some (l, g) else none)

/-- The parts of the environment `main` reads: whether `lookup.p` exists, the
lookup table stored in it, and the content (as lines) of the word-list file
named by the `listpath` argument. -/
structure Env where
  lookupExists : Bool
  lookupTable : Lookup
  wordlistLines : List (List Char)

/-- Model of `main`'s result-set computation: `generate_lookup` runs only when
`lookup.p` is absent, and `get_results` then reads the table that is on disk. -/
def main_results (e : Env) (input : List Char) : Finset (List Char) :=
  get_results (if e.lookupExists then e.lookupTable else generate_lookup e.wordlistLines) input

/-- Well-formedness of a lookup table, as established by `generate_lookup`:
the two dictionaries have the same keys in the same order, keys are unique,
every cached vector is the vectorization of its key, and every stored word
sorts letter-wise to its key. -/
def lookupWF (st : Lookup) : Prop :=
  st.anagrams.map Prod.fst = st.vectors.map Prod.fst ∧
  (st.anagrams.map Prod.fst).Nodup ∧
  (∀ p ∈ st.vectors, p.2 = vectorize_word p.1) ∧
  (∀ p ∈ st.anagrams, ∀ w ∈ p.2, sortWord w = p.1)

instance decidableIndexedWord (lk : Lookup) (w : List Char) : Decidable (indexedWord lk w) :=
  inferInstanceAs (Decidable (∃ p ∈ lk.anagrams, w ∈ p.2))

/-! Basic facts about `vectorize_word` and the subanagram test `vecLe`. -/

lemma vectorize_length (w : List Char) : (vectorize_word w).length = 26 := by
  simp [vectorize_word, ascii_lowercase]

lemma vectorize_perm {w w' : List Char} (h : w.Perm w') :
    vectorize_word w = vectorize_word w' := by
  unfold vectorize_word
  exact List.map_congr_left (fun c _ => h.count_eq c)

lemma sortWord_perm (w : List Char) : (sortWord w).Perm w :=
  List.perm_insertionSort _ w

lemma vectorize_sortWord (w : List Char) :
    vectorize_word (sortWord w) = vectorize_word w :=
  vectorize_perm (sortWord_perm w)

lemma count_sortWord (w : List Char) (c : Char) :
    (sortWord w).count c = w.count c :=
  (sortWord_perm w).count_eq c

lemma vectorize_getD (w : List Char) (i : Nat) (h : i < 26) :
    (vectorize_word w).getD i 0 = w.count (ascii_lowercase.getD i ' ') := by
  have hi : i < ascii_lowercase.length := h
  unfold vectorize_word
  rw [List.getD_eq_getElem?_getD, List.getD_eq_getElem?_getD, List.getElem?_map,
    List.getElem?_eq_getElem hi]
  simp

lemma vecLe_iff (a b : List Nat) :
    vecLe a b = true ↔ ∀ i < 26, a.getD i 0 ≤ b.getD i 0 := by
  simp [vecLe, List.all_eq_true, List.mem_range]

lemma vecLe_vectorize_iff (v w : List Char) :
    vecLe (vectorize_word v) (vectorize_word w) = true ↔
      ∀ c ∈ ascii_lowercase, v.count c ≤ w.count c := by
  rw [vecLe_iff]
  constructor
  · intro h c hc
    obtain ⟨i, hi, hci⟩ := List.mem_iff_getElem.mp hc
    have h26 : i < 26 := hi
    have hd := h i h26
    rw [vectorize_getD v i h26, vectorize_getD w i h26] at hd
    have hgd : ascii_lowercase.getD i ' ' = c := by
      rw [List.getD_eq_getElem?_getD, List.getElem?_eq_getElem hi]
      simpa using hci
    rwa [hgd] at hd
  · intro h i hi
    rw [vectorize_getD v i hi, vectorize_getD w i hi]
    apply h
    have hi' : i < ascii_lowercase.length := hi
    rw [List.getD_eq_getElem?_getD, List.getElem?_eq_getElem hi']
    exact List.getElem_mem hi'

/-! Facts about the association-list dictionary model. -/

lemma dget_nil {β : Type} (k : List Char) : dget ([] : List (List Char × β)) k = none := rfl

lemma dget_cons {β : Type} (p : List Char × β) (t : List (List Char × β)) (k : List Char) :
    dget (p :: t) k = if p.1 = k then some p.2 else dget t k := rfl

lemma dget_eq_none_iff {β : Type} (m : List (List Char × β)) (k : List Char) :
    dget m k = none ↔ k ∉ m.map Prod.fst := by
  induction m with
  | nil => simp [dget_nil]
  | cons p t ih =>
    rw [dget_cons, List.map_cons, List.mem_cons]
    by_cases hp : p.1 = k
    · rw [if_pos hp]
      constructor
      · intro h
        exact (Option.some_ne_none _ h).elim
      · intro h
        exact absurd (Or.inl hp.symm) h
    · rw [if_neg hp, ih]
      constructor
      · intro h hor
        rcases hor with h1 | h2
        · exact hp h1.symm
        · exact h h2
      · intro h h2
        exact h (Or.inr h2)

lemma dget_isSome_iff {β : Type} (m : List (List Char × β)) (k : List Char) :
    (dget m k).isSome = true ↔ k ∈ m.map Prod.fst := by
  rw [← Option.not_isSome_iff_eq_none.symm.not_left, dget_eq_none_iff, not_not]

lemma dget_mem {β : Type} {m : List (List Char × β)} {k : List Char} {b : β}
    (h : dget m k = some b) : (k, b) ∈ m := by
  induction m with
  | nil => simp [dget_nil] at h
  | cons p t ih =>
    rw [dget_cons] at h
    by_cases hp : p.1 = k
    · rw [if_pos hp] at h
      have hb : p.2 = b := by injection h
      have hpk : p = (k, b) := by
        cases p
        simp_all
      exact hpk ▸ List.mem_cons_self _ _
    · rw [if_neg hp] at h
      exact List.mem_cons_of_mem _ (ih h)

lemma dget_of_nodup {β : Type} {m : List (List Char × β)}
    (hnd : (m.map Prod.fst).Nodup) {p : List Char × β} (hp : p ∈ m) :
    dget m p.1 = some p.2 := by
  induction m with
  | nil => cases hp
  | cons q t ih =>
    rw [List.map_cons, List.nodup_cons] at hnd
    rcases List.mem_cons.mp hp with h | h
    · subst h
      simp [dget_cons]
    · have hq : q.1 ≠ p.1 := by
        intro he
        exact hnd.1 (he ▸ List.mem_map_of_mem Prod.fst h)
      rw [dget_cons, if_neg hq]
      exact ih hnd.2 h

lemma dget_of_forall_eq {β : Type} (F : List Char → β) {m : List (List Char × β)}
    (hF : ∀ p ∈ m, p.2 = F p.1) {k : List Char} (hk : k ∈ m.map Prod.fst) :
    dget m k = some (F k) := by
  obtain ⟨b, hb⟩ := Option.isSome_iff_exists.mp ((dget_isSome_iff m k).mpr hk)
  have hmem := dget_mem hb
  have := hF (k, b) hmem
  simp only at this
  rw [hb, this]

/-! Facts about one loop iteration of `generate_lookup`. -/

lemma addWordTo_map_fst (m : List (List Char × Finset (List Char))) (k w : List Char) :
    (addWordTo m k w).map Prod.fst = m.map Prod.fst := by
  unfold addWordTo
  rw [List.map_map]
  apply List.map_congr_left
  intro p _
  by_cases h : p.1 = k <;> simp [h]

lemma exists_mem_addWordTo_iff (m : List (List Char × Finset (List Char))) (k u w : List Char) :
    (∃ p ∈ addWordTo m k u, w ∈ p.2) ↔
      (∃ p ∈ m, w ∈ p.2) ∨ (w = u ∧ k ∈ m.map Prod.fst) := by
  unfold addWordTo
  constructor
  · rintro ⟨p, hp, hw⟩
    obtain ⟨q, hq, rfl⟩ := List.mem_map.mp hp
    by_cases h : q.1 = k
    · rw [if_pos h] at hw
      rcases Finset.mem_insert.mp hw with rfl | hw2
      · exact Or.inr ⟨rfl, h ▸ List.mem_map_of_mem Prod.fst hq⟩
      · exact Or.inl ⟨q, hq, hw2⟩
    · rw [if_neg h] at hw
      exact Or.inl ⟨q, hq, hw⟩
  · rintro (⟨p, hp, hw⟩ | ⟨rfl, hk⟩)
    · by_cases h : p.1 = k
      · refine ⟨(p.1, insert u p.2), List.mem_map.mpr ⟨p, hp, by rw [if_pos h]⟩, ?_⟩
        exact Finset.mem_insert_of_mem hw
      · exact ⟨p, List.mem_map.mpr ⟨p, hp, by rw [if_neg h]⟩, hw⟩
    · obtain ⟨p, hp, hpk⟩ := List.mem_map.mp hk
      refine ⟨(p.1, insert w p.2), List.mem_map.mpr ⟨p, hp, by rw [if_pos hpk]⟩, ?_⟩
      exact Finset.mem_insert_self _ _

lemma sorts_addWordTo {m : List (List Char × Finset (List Char))}
    (hm : ∀ p ∈ m, ∀ w ∈ p.2, sortWord w = p.1) {k u : List Char} (hu : sortWord u = k) :
    ∀ p ∈ addWordTo m k u, ∀ w ∈ p.2, sortWord w = p.1 := by
  intro p hp w hw
  obtain ⟨q, hq, rfl⟩ := List.mem_map.mp hp
  by_cases h : q.1 = k
  · rw [if_pos h] at hw ⊢
    rcases Finset.mem_insert.mp hw with rfl | hw2
    · exact hu.trans h.symm
    · exact hm q hq w hw2
  · rw [if_neg h] at hw ⊢
    exact hm q hq w hw

lemma insertWord_pos (st : Lookup) (u : List Char)
    (h : (dget st.anagrams (sortWord u)).isSome) :
    insertWord st u = ⟨addWordTo st.anagrams (sortWord u) u, st.vectors⟩ := by
  simp only [insertWord]
  rw [if_pos h]

lemma insertWord_neg (st : Lookup) (u : List Char)
    (h : ¬ (dget st.anagrams (sortWord u)).isSome = true) :
    insertWord st u =
      ⟨addWordTo (st.anagrams ++ [(sortWord u, ∅)]) (sortWord u) u,
       st.vectors ++ [(sortWord u, vectorize_word (sortWord u))]⟩ := by
  simp only [insertWord]
  rw [if_neg h]

lemma lookupWF_insertWord {st : Lookup} (h : lookupWF st) (u : List Char) :
    lookupWF (insertWord st u) := by
  obtain ⟨hkeys, hnd, hvec, hsort⟩ := h
  by_cases hks : (dget st.anagrams (sortWord u)).isSome
  · rw [insertWord_pos st u hks]
    exact ⟨by rw [addWordTo_map_fst]; exact hkeys,
      by rw [addWordTo_map_fst]; exact hnd,
      hvec,
      sorts_addWordTo hsort rfl⟩
  · rw [insertWord_neg st u hks]
    have hnotmem : sortWord u ∉ st.anagrams.map Prod.fst := by
      rw [← dget_isSome_iff]
      exact hks
    refine ⟨?_, ?_, ?_, ?_⟩
    · rw [addWordTo_map_fst]
      simp only [List.map_append, List.map_cons, List.map_nil]
      rw [hkeys]
    · rw [addWordTo_map_fst]
      simp only [List.map_append, List.map_cons, List.map_nil]
      rw [List.nodup_append]
      exact ⟨hnd, List.nodup_singleton _, by simpa using hnotmem⟩
    · intro p hp
      rcases List.mem_append.mp hp with hp1 | hp2
      · exact hvec p hp1
      · have : p = (sortWord u, vectorize_word (sortWord u)) := by simpa using hp2
        rw [this]
    · apply sorts_addWordTo ?_ rfl
      intro p hp w hw
      rcases List.mem_append.mp hp with hp1 | hp2
      · exact hsort p hp1 w hw
      · have : p = (sortWord u, (∅ : Finset (List Char))) := by simpa using hp2
        rw [this] at hw
        exact absurd hw (Finset.not_mem_empty w)

lemma indexedWord_insertWord (st : Lookup) (u w : List Char) :
    indexedWord (insertWord st u) w ↔ indexedWord st w ∨ w = u := by
  unfold indexedWord
  by_cases hks : (dget st.anagrams (sortWord u)).isSome
  · rw [insertWord_pos st u hks]
    simp only
    rw [exists_mem_addWordTo_iff]
    have hk : sortWord u ∈ st.anagrams.map Prod.fst := (dget_isSome_iff _ _).mp hks
    constructor
    · rintro (h | ⟨rfl, _⟩)
      · exact Or.inl h
      · exact Or.inr rfl
    · rintro (h | rfl)
      · exact Or.inl h
      · exact Or.inr ⟨rfl, hk⟩
  · rw [insertWord_neg st u hks]
    simp only
    rw [exists_mem_addWordTo_iff]
    constructor
    · rintro (⟨p, hp, hw⟩ | ⟨rfl, _⟩)
      · rcases List.mem_append.mp hp with hp1 | hp2
        · exact Or.inl ⟨p, hp1, hw⟩
        · have : p = (sortWord u, (∅ : Finset (List Char))) := by simpa using hp2
          rw [this] at hw
          exact absurd hw (Finset.not_mem_empty w)
      · exact Or.inr rfl
    · rintro (⟨p, hp, hw⟩ | rfl)
      · exact Or.inl ⟨p, List.mem_append_left _ hp, hw⟩
      · refine Or.inr ⟨rfl, ?_⟩
        simp

lemma indexedWord_foldl (ws : List (List Char)) :
    ∀ (st : Lookup) (w : List Char),
      indexedWord (ws.foldl insertWord st) w ↔ indexedWord st w ∨ w ∈ ws := by
  induction ws with
  | nil => simp
  | cons u ws ih =>
    intro st w
    rw [List.foldl_cons, ih, indexedWord_insertWord, List.mem_cons]
    tauto

lemma lookupWF_foldl (ws : List (List Char)) :
    ∀ st : Lookup, lookupWF st → lookupWF (ws.foldl insertWord st) := by
  induction ws with
  | nil => exact fun st h => h
  | cons u ws ih => exact fun st h => ih _ (lookupWF_insertWord h u)

lemma lookupWF_empty : lookupWF emptyLookup :=
  ⟨rfl, List.nodup_nil, by simp [emptyLookup], by simp [emptyLookup]⟩

lemma lookupWF_generate (lines : List (List Char)) : lookupWF (generate_lookup lines) :=
  lookupWF_foldl _ _ lookupWF_empty

lemma lookupWF_buildState (lines : List (List Char)) (n : Nat) :
    lookupWF (buildState lines n) :=
  lookupWF_foldl _ _ lookupWF_empty

lemma indexedWord_generate (lines : List (List Char)) (w : List Char) :
    indexedWord (generate_lookup lines) w ↔ w ∈ wordTokens lines := by
  rw [generate_lookup, indexedWord_foldl]
  simp [indexedWord, emptyLookup]

/-! Characterizing membership in the result set of `get_results`. -/

lemma vecLe_refl (a : List Nat) : vecLe a a = true := by
  rw [vecLe_iff]
  intro i _
  exact le_refl _

lemma mem_foldl_filter_union (P : List Char → Bool) (g : List Char → Finset (List Char)) :
    ∀ (ks : List (List Char)) (acc : Finset (List Char)) (w : List Char),
      w ∈ ks.foldl (fun a c => if P c then a ∪ g c else a) acc ↔
        w ∈ acc ∨ ∃ c ∈ ks, P c = true ∧ w ∈ g c := by
  intro ks
  induction ks with
  | nil => simp
  | cons c ks ih =>
    intro acc w
    rw [List.foldl_cons, ih]
    by_cases hc : P c = true
    · rw [if_pos hc]
      rw [Finset.mem_union]
      constructor
      · rintro ((h | h) | h)
        · exact Or.inl h
        · exact Or.inr ⟨c, List.mem_cons_self _ _, hc, h⟩
        · obtain ⟨d, hd, hPd, hwd⟩ := h
          exact Or.inr ⟨d, List.mem_cons_of_mem _ hd, hPd, hwd⟩
      · rintro (h | ⟨d, hd, hPd, hwd⟩)
        · exact Or.inl (Or.inl h)
        · rcases List.mem_cons.mp hd with rfl | hd2
          · exact Or.inl (Or.inr hwd)
          · exact Or.inr ⟨d, hd2, hPd, hwd⟩
    · rw [if_neg hc]
      constructor
      · rintro (h | ⟨d, hd, hPd, hwd⟩)
        · exact Or.inl h
        · exact Or.inr ⟨d, List.mem_cons_of_mem _ hd, hPd, hwd⟩
      · rintro (h | ⟨d, hd, hPd, hwd⟩)
        · exact Or.inl h
        · rcases List.mem_cons.mp hd with rfl | hd2
          · exact absurd hPd hc
          · exact Or.inr ⟨d, hd2, hPd, hwd⟩

lemma mem_get_results {lk : Lookup} (hwf : lookupWF lk) (q w : List Char) :
    w ∈ get_results lk q ↔
      indexedWord lk w ∧
      vecLe (vectorize_word w) (vectorize_word (pyLower q)) = true ∧
      w ≠ pyLower q := by
  obtain ⟨hkeys, hnd, hvec, hsort⟩ := hwf
  unfold get_results
  rw [Finset.mem_erase,
    mem_foldl_filter_union
      (fun c => vecLe ((dget lk.vectors c).getD []) (vectorize_word (pyLower q)))
      (fun c => (dget lk.anagrams c).getD ∅)]
  constructor
  · rintro ⟨hne, hfalse | ⟨c, hc, hP, hw⟩⟩
    · exact absurd hfalse (Finset.not_mem_empty w)
    · have hcv : c ∈ lk.vectors.map Prod.fst := hkeys ▸ hc
      have hv : dget lk.vectors c = some (vectorize_word c) :=
        dget_of_forall_eq vectorize_word hvec hcv
      obtain ⟨ws, hws⟩ := Option.isSome_iff_exists.mp ((dget_isSome_iff _ _).mpr hc)
      have hmem : (c, ws) ∈ lk.anagrams := dget_mem hws
      rw [hws] at hw
      simp only [Option.getD_some] at hw
      have hsortw : sortWord w = c := hsort (c, ws) hmem w hw
      refine ⟨⟨(c, ws), hmem, hw⟩, ?_, hne⟩
      have hvw : vectorize_word w = vectorize_word c := by
        rw [← hsortw, vectorize_sortWord]
      rw [hvw]
      rw [hv] at hP
      simpa using hP
  · rintro ⟨⟨p, hp, hw⟩, hle, hne⟩
    refine ⟨hne, Or.inr ?_⟩
    have hsortw : sortWord w = p.1 := hsort p hp w hw
    have hc : p.1 ∈ lk.anagrams.map Prod.fst := List.mem_map_of_mem Prod.fst hp
    have hcv : p.1 ∈ lk.vectors.map Prod.fst := hkeys ▸ hc
    have hv : dget lk.vectors p.1 = some (vectorize_word p.1) :=
      dget_of_forall_eq vectorize_word hvec hcv
    have ha : dget lk.anagrams p.1 = some p.2 := dget_of_nodup hnd hp
    refine ⟨p.1, hc, ?_, ?_⟩
    · rw [hv]
      simp only [Option.getD_some]
      have hvw : vectorize_word p.1 = vectorize_word w := by
        rw [← hsortw, vectorize_sortWord]
      rw [hvw]
      exact hle
    · rw [ha]
      simpa using hw

/-! Length accounting: the sum of a word's letter-count vector. -/

lemma sum_map_add (f g : Char → Nat) (l : List Char) :
    (l.map (fun x => f x + g x)).sum = (l.map f).sum + (l.map g).sum := by
  induction l with
  | nil => rfl
  | cons a l ih =>
    simp only [List.map_cons, List.sum_cons, ih]
    omega

lemma sum_indicator (a : Char) (cs : List Char) (h : cs.Nodup) :
    (cs.map (fun c => if a = c then 1 else 0)).sum = if a ∈ cs then 1 else 0 := by
  induction cs with
  | nil => simp
  | cons c cs ih =>
    rw [List.nodup_cons] at h
    rw [List.map_cons, List.sum_cons, ih h.2]
    by_cases hca : a = c
    · subst hca
      rw [if_pos rfl, if_neg h.1, if_pos (List.mem_cons_self _ _)]
    · rw [if_neg hca]
      by_cases ham : a ∈ cs
      · rw [if_pos ham, if_pos (List.mem_cons_of_mem _ ham)]
      · rw [if_neg ham, if_neg (by simp [List.mem_cons, hca, ham])]

lemma count_sum_eq_filter_length (cs : List Char) (hnd : cs.Nodup) (w : List Char) :
    (cs.map (fun c => w.count c)).sum = (w.filter (fun a => decide (a ∈ cs))).length := by
  induction w with
  | nil => simp
  | cons a w ih =>
    have hstep : (cs.map (fun c => (a :: w).count c)).sum
        = (cs.map (fun c => w.count c)).sum + (if a ∈ cs then 1 else 0) := by
      calc (cs.map (fun c => (a :: w).count c)).sum
          = (cs.map (fun c => w.count c + if a = c then 1 else 0)).sum := by
            apply congrArg List.sum
            apply List.map_congr_left
            intro c _
            rw [List.count_cons]
            congr 1
            simp [beq_iff_eq]
        _ = (cs.map (fun c => w.count c)).sum
            + (cs.map (fun c => if a = c then 1 else 0)).sum := sum_map_add _ _ cs
        _ = (cs.map (fun c => w.count c)).sum + (if a ∈ cs then 1 else 0) := by
            rw [sum_indicator a cs hnd]
    rw [hstep, ih, List.filter_cons]
    by_cases hm : a ∈ cs
    · rw [if_pos hm, if_pos (decide_eq_true hm)]
      simp
    · rw [if_neg hm, if_neg (by simpa using hm)]
      simp

lemma ascii_lowercase_nodup : ascii_lowercase.Nodup := by decide

lemma sum_vectorize_eq_filter (w : List Char) :
    (vectorize_word w).sum = (w.filter (fun a => decide (a ∈ ascii_lowercase))).length :=
  count_sum_eq_filter_length ascii_lowercase ascii_lowercase_nodup w

lemma sum_vectorize_le_length (w : List Char) : (vectorize_word w).sum ≤ w.length := by
  rw [sum_vectorize_eq_filter]
  exact List.length_filter_le _ _

lemma sum_vectorize_eq_length {w : List Char} (h : ∀ c ∈ w, c ∈ ascii_lowercase) :
    (vectorize_word w).sum = w.length := by
  rw [sum_vectorize_eq_filter, List.filter_eq_self.mpr (fun a ha => by simpa using h a ha)]

lemma sum_le_of_getD_le :
    ∀ a b : List Nat, a.length = b.length → (∀ i, a.getD i 0 ≤ b.getD i 0) → a.sum ≤ b.sum := by
  intro a
  induction a with
  | nil =>
    intro b hlen _
    have : b = [] := List.length_eq_zero.mp hlen.symm
    rw [this]
  | cons x xs ih =>
    intro b hlen h
    cases b with
    | nil => simp at hlen
    | cons y ys =>
      have hx : x ≤ y := h 0
      have hxs : xs.sum ≤ ys.sum := by
        apply ih ys (by simpa using hlen)
        intro i
        exact h (i + 1)
      simp only [List.sum_cons]
      omega

lemma vecLe_sum_le {a b : List Nat} (ha : a.length = 26) (hb : b.length = 26)
    (h : vecLe a b = true) : a.sum ≤ b.sum := by
  apply sum_le_of_getD_le a b (ha.trans hb.symm)
  intro i
  by_cases hi : i < 26
  · exact (vecLe_iff a b).mp h i hi
  · rw [List.getD_eq_default _ _ (by rw [ha]; omega),
      List.getD_eq_default _ _ (by rw [hb]; omega)]

lemma pyLower_length (w : List Char) : (pyLower w).length = w.length := by
  simp [pyLower]

/-! Claim theorems. -/

/-- Claim C1 (confirmed): for every index built by `generate_lookup` and every
query `q`, a word `w` is in `get_results`' output exactly when `w` is indexed,
every lowercase letter occurs in `w` at most as often as in the lowercased
query, and `w` is not the lowercased query string itself (which is removed). -/
theorem c1_dominance_characterization (lines : List (List Char)) (q w : List Char) :
    w ∈ get_results (generate_lookup lines) q ↔
      indexedWord (generate_lookup lines) w ∧
      (∀ c ∈ ascii_lowercase, w.count c ≤ (pyLower q).count c) ∧
      w ≠ pyLower q := by
  rw [mem_get_results (lookupWF_generate lines), vecLe_vectorize_iff]

/-- Claim C2 (counterexample): self-exclusion fails for an indexed word that is
not all-lowercase.  With the word list containing exactly "Dog", querying "Dog"
returns a set that still contains "Dog" itself: only the lowercased query
"dog" is removed. -/
theorem c2_counterexample :
    ['D', 'o', 'g'] ∈ wordTokens [['D', 'o', 'g']] ∧
    ['D', 'o', 'g'] ∈ get_results (generate_lookup [['D', 'o', 'g']]) ['D', 'o', 'g'] := by
  decide

/-- Claim C2 (amended): for any word of the word list that is equal to its own
lowercasing, querying that word never returns the word itself. -/
theorem c2_self_exclusion_lowercase (lines : List (List Char)) (w : List Char)
    (_hw : w ∈ wordTokens lines) (hlow : pyLower w = w) :
    w ∉ get_results (generate_lookup lines) w := by
  unfold get_results
  rw [hlow]
  exact Finset.not_mem_erase w _

/-- Witness for the amended claim C2, at the word list containing "a" and the
query "a". -/
theorem c2_witness : ['a'] ∉ get_results (generate_lookup [['a']]) ['a'] :=
  c2_self_exclusion_lowercase [['a']] ['a'] (by decide) (by decide)

/-- Claim C3 (confirmed): any indexed word sharing the lowercased query's exact
signature (sorted letters) that differs from the lowercased query string is in
the result set — the query's own signature is not skipped by the scan. -/
theorem c3_true_anagrams_included (lines : List (List Char)) (q w : List Char)
    (hw : indexedWord (generate_lookup lines) w)
    (hsig : sortWord w = sortWord (pyLower q))
    (hne : w ≠ pyLower q) :
    w ∈ get_results (generate_lookup lines) q := by
  rw [mem_get_results (lookupWF_generate lines)]
  refine ⟨hw, ?_, hne⟩
  have hvq : vectorize_word w = vectorize_word (pyLower q) := by
    rw [← vectorize_sortWord w, hsig, vectorize_sortWord]
  rw [hvq]
  exact vecLe_refl _

/-- Witness for claim C3, at the word list ["arc", "car"] and the query "car":
the true anagram "arc" is returned. -/
theorem c3_witness :
    ['a', 'r', 'c'] ∈ get_results (generate_lookup [['a', 'r', 'c'], ['c', 'a', 'r']])
      ['c', 'a', 'r'] :=
  c3_true_anagrams_included [['a', 'r', 'c'], ['c', 'a', 'r']] ['c', 'a', 'r'] ['a', 'r', 'c']
    (by decide) (by decide) (by decide)

/-- Claim C4 (counterexample): the length bound fails for an arbitrary word
list.  The word "XYZ" has an all-zero letter-count vector (uppercase letters
match no probe), so it dominates every query: querying "a" returns "XYZ",
which is longer than the query. -/
theorem c4_counterexample :
    ['X', 'Y', 'Z'] ∈ get_results (generate_lookup [['X', 'Y', 'Z']]) ['a'] ∧
    ¬ (['X', 'Y', 'Z'] : List Char).length ≤ (['a'] : List Char).length := by
  decide

/-- Claim C4 (amended): when every word token of the word list consists only of
lowercase a-z letters, no returned result is longer than the query. -/
theorem c4_length_bound_lowercase (lines : List (List Char)) (q w : List Char)
    (hlow : ∀ t ∈ wordTokens lines, ∀ c ∈ t, c ∈ ascii_lowercase)
    (hw : w ∈ get_results (generate_lookup lines) q) :
    w.length ≤ q.length := by
  rw [mem_get_results (lookupWF_generate lines)] at hw
  obtain ⟨hidx, hle, _⟩ := hw
  have hwtok : w ∈ wordTokens lines := (indexedWord_generate lines w).mp hidx
  have hsum : (vectorize_word w).sum = w.length := sum_vectorize_eq_length (hlow w hwtok)
  calc w.length = (vectorize_word w).sum := hsum.symm
    _ ≤ (vectorize_word (pyLower q)).sum :=
        vecLe_sum_le (vectorize_length w) (vectorize_length (pyLower q)) hle
    _ ≤ (pyLower q).length := sum_vectorize_le_length _
    _ = q.length := pyLower_length q

/-- Witness for the amended claim C4, at the word list ["ab", "a"] and the
query "ab": the result "a" is no longer than the query. -/
theorem c4_witness : (['a'] : List Char).length ≤ (['a', 'b'] : List Char).length :=
  c4_length_bound_lowercase [['a', 'b'], ['a']] ['a', 'b'] ['a'] (by decide) (by decide)

/-- Claim C5 (counterexample): blank lines are not skipped — the read loop
stops at the first blank line.  With the source lines "a", "", "b", the
non-blank token "b" after the blank line is not indexed. -/
theorem c5_counterexample :
    rstrip ['b'] ≠ [] ∧ ¬ indexedWord (generate_lookup [['a'], [], ['b']]) ['b'] := by
  decide

/-- Claim C5 (amended): each line is rstripped, and reading stops at the first
line that is blank after stripping; a word is indexed exactly when it occurs
among the stripped lines before the first blank one. -/
theorem c5_tokens_before_first_blank (lines : List (List Char)) (w : List Char) :
    indexedWord (generate_lookup lines) w ↔ w ∈ wordTokens lines :=
  indexedWord_generate lines w

/-- Claim C6 (confirmed): when every signature key of the built index contains
at least one lowercase letter, the empty query returns the empty set. -/
theorem c6_empty_query (lines : List (List Char))
    (hkeys : ∀ p ∈ (generate_lookup lines).anagrams, ∃ c ∈ p.1, c ∈ ascii_lowercase) :
    get_results (generate_lookup lines) [] = ∅ := by
  rw [Finset.eq_empty_iff_forall_not_mem]
  intro w hw
  rw [mem_get_results (lookupWF_generate lines), vecLe_vectorize_iff] at hw
  obtain ⟨⟨p, hp, hwp⟩, hle, _⟩ := hw
  obtain ⟨c, hc1, hc2⟩ := hkeys p hp
  have hsortw : sortWord w = p.1 := (lookupWF_generate lines).2.2.2 p hp w hwp
  have hcount : 0 < w.count c := by
    rw [← count_sortWord w c, hsortw]
    exact List.count_pos_iff.mpr hc1
  have hzero := hle c hc2
  simp only [pyLower, List.map_nil, List.count_nil, Nat.le_zero] at hzero
  omega

/-- Witness for claim C6, at the word list ["a"]. -/
theorem c6_witness : get_results (generate_lookup [['a']]) [] = ∅ :=
  c6_empty_query [['a']] (by decide)

/-- Claim C7 (confirmed): `vectorize_word` is invariant under permutation of
the word's characters, always yields a list of 26 (non-negative) counts whose
`i`-th entry is the number of occurrences of the `i`-th lowercase letter, and
characters outside a-z contribute to no entry (dropping them leaves the vector
unchanged). -/
theorem c7_vectorize_props (w w' : List Char) (hperm : w.Perm w') :
    vectorize_word w = vectorize_word w' ∧
    (vectorize_word w).length = 26 ∧
    (∀ i, i < 26 → (vectorize_word w).getD i 0 = w.count (ascii_lowercase.getD i ' ')) ∧
    vectorize_word (w.filter (fun c => decide (c ∈ ascii_lowercase))) = vectorize_word w := by
  refine ⟨vectorize_perm hperm, vectorize_length w,
    fun i hi => vectorize_getD w i hi, ?_⟩
  unfold vectorize_word
  apply List.map_congr_left
  intro c hc
  exact List.count_filter (by simpa using hc)

/-- Witness for claim C7, at the permutation "ab" of "ba". -/
theorem c7_witness : vectorize_word ['a', 'b'] = vectorize_word ['b', 'a'] :=
  (c7_vectorize_props ['a', 'b'] ['b', 'a'] (by decide)).1

/-- Claim C8 (confirmed): at every point during construction (after any number
`n` of word tokens have been processed) the two dictionaries have the same
keys, every cached vector is the vectorization of its key, and every stored
word sorts letter-wise to its key; the state after all tokens is the built
lookup table. -/
theorem c8_co_keying_invariant (lines : List (List Char)) (n : Nat) :
    (buildState lines n).anagrams.map Prod.fst = (buildState lines n).vectors.map Prod.fst ∧
    (∀ p ∈ (buildState lines n).vectors, p.2 = vectorize_word p.1) ∧
    (∀ p ∈ (buildState lines n).anagrams, ∀ w ∈ p.2, sortWord w = p.1) ∧
    buildState lines ((wordTokens lines).length) = generate_lookup lines := by
  obtain ⟨h1, _, h3, h4⟩ := lookupWF_buildState lines n
  refine ⟨h1, h3, h4, ?_⟩
  rw [buildState, List.take_length, generate_lookup]

/-- Claim C9 (code evaluation): with query "cars" and result set containing
only the 1-letter word "a", the length-1 group is non-empty but
`print_results` emits no group at all — its loop `range(len(q), 1, -1)` stops
at length 2, so 1-letter subanagrams are never printed. -/
theorem c9_length_one_group_dropped :
    (({['a']} : Finset (List Char)).filter (fun w => w.length = 1)).Nonempty ∧
    print_results ['c', 'a', 'r', 's'] {['a']} = [] := by
  decide

/-- Claim C10 (confirmed): when `lookup.p` exists, `main`'s result set depends
only on the stored lookup table and the query — two environments sharing the
table but with different word-list files produce identical result sets. -/
theorem c10_noninterference (e1 e2 : Env) (input : List Char)
    (h1 : e1.lookupExists = true) (h2 : e2.lookupExists = true)
    (htab : e1.lookupTable = e2.lookupTable) :
    main_results e1 input = main_results e2 input := by
  unfold main_results
  rw [h1, h2, htab, if_pos rfl, if_pos rfl]

/-- Witness for claim C10, at two environments whose word lists differ. -/
theorem c10_witness :
    main_results ⟨true, emptyLookup, [['a']]⟩ ['x'] =
    main_results ⟨true, emptyLookup, [['b']]⟩ ['x'] :=
  c10_noninterference ⟨true, emptyLookup, [['a']]⟩ ⟨true, emptyLookup, [['b']]⟩ ['x']
    rfl rfl rfl

end Solver
